import Mathlib

/-!
Verification model of the Secure-Vault deduplicating blob store
(`backend/files/views.py`, `validators.py`, `sensitive_scan.py`).

The database tables `FileBlob` and `File`, the storage backend, and the
upload / delete / stats flows are shallowly embedded as pure functions on an
explicit state.  Content digests are modelled as the byte content itself
(SHA-256 is treated as an ideal injective hash); blob storage locations are
likewise keyed by digest, mirroring the injective `blobs/hash[:2]/hash`
layout of `_get_blob_path`.  Machine text is modelled as `List Char`
(ASCII semantics for the Python `\w`/`\s` character classes).
-/

/-- A row of the `FileBlob` table (`models.FileBlob`): content digest,
byte size, backend storage location, and reference count.  `ref_count`
is kept as an integer so that the `F('ref_count') - 1` update of
`_garbage_collect_blob` is exact. -/
structure Blob where
  sha256 : List Nat
  size : Nat
  path : List Nat
  ref_count : Int
deriving DecidableEq

/-- A row of the `File` table (`models.File`): primary key and the
foreign reference to its blob (by digest). -/
structure FileRec where
  fid : Nat
  blobDigest : List Nat
deriving DecidableEq

/-- Durable state: the two tables, the set of backend locations holding
bytes, and the id counter for new `File` rows. -/
structure VaultState where
  blobs : List Blob
  records : List FileRec
  stored : List (List Nat)
  nextId : Nat
deriving DecidableEq

def initialState : VaultState := ⟨[], [], [], 0⟩

/-- Lookup of a blob row by digest (the `sha256` unique column), as in
`FileBlob.objects.get_or_create(sha256=file_hash, ...)`. -/
def findBlob : List Blob → List Nat → Option Blob
  | [], _ => none
  | b :: bs, d => if b.sha256 = d then some b else findBlob bs d

/-- Lookup of a `File` row by primary key (`self.get_object()`). -/
def findRecord : List FileRec → Nat → Option FileRec
  | [], _ => none
  | r :: rs, k => if r.fid = k then some r else findRecord rs k

/-- The atomic `update(ref_count=F('ref_count') + 1)` scoped to the blob
with the given digest. -/
def bumpRef : List Blob → List Nat → List Blob
  | [], _ => []
  | b :: bs, d =>
      (if b.sha256 = d then { b with ref_count := b.ref_count + 1 } else b) :: bumpRef bs d

/-- The atomic `update(ref_count=F('ref_count') - 1)` scoped to the blob
with the given digest. -/
def decRef : List Blob → List Nat → List Blob
  | [], _ => []
  | b :: bs, d =>
      (if b.sha256 = d then { b with ref_count := b.ref_count - 1 } else b) :: decRef bs d

/-- Deletion of the blob row (`blob.delete()`), keyed by digest. -/
def dropBlob : List Blob → List Nat → List Blob
  | [], _ => []
  | b :: bs, d => if b.sha256 = d then dropBlob bs d else b :: dropBlob bs d

/-- Deletion of the backend bytes at a location (`_delete_blob_file`). -/
def dropStored : List (List Nat) → List Nat → List (List Nat)
  | [], _ => []
  | p :: ps, q => if p = q then dropStored ps q else p :: dropStored ps q

/-- Number of `File` rows whose blob reference points at a digest. -/
def countRefs : List FileRec → List Nat → Nat
  | [], _ => 0
  | r :: rs, d => (if r.blobDigest = d then 1 else 0) + countRefs rs d

/-- Deletion of one `File` row by primary key (`file_instance.delete()`). -/
def eraseRecord : List FileRec → Nat → List FileRec
  | [], _ => []
  | r :: rs, k => if r.fid = k then rs else r :: eraseRecord rs k

def blobDigests (bs : List Blob) : List (List Nat) := bs.map (fun b => b.sha256)

/-- A completed upload (steps 4-5 of `_process_upload_with_security`):
get-or-create the blob row (seeded with `ref_count = 0`), move the temp
bytes into blob storage for a new blob or discard them for a duplicate,
atomically increment `ref_count`, then create the `File` row. -/
def processUpload (s : VaultState) (content : List Nat) : VaultState :=
  match findBlob s.blobs content with
  | none =>
      { blobs := bumpRef
          ({ sha256 := content, size := content.length, path := content, ref_count := 0 } :: s.blobs)
          content,
        records := { fid := s.nextId, blobDigest := content } :: s.records,
        stored := content :: s.stored,
        nextId := s.nextId + 1 }
  | some _ =>
      { blobs := bumpRef s.blobs content,
        records := { fid := s.nextId, blobDigest := content } :: s.records,
        stored := s.stored,
        nextId := s.nextId + 1 }

/-- Destructive effects emitted by the garbage-collection path, in
execution order. -/
inductive GCAct where
  | deleteBytes (path : List Nat)
  | deleteRow (digest : List Nat)
deriving DecidableEq

/-- `_garbage_collect_blob`: decrement `ref_count` atomically, re-read the
row, and if the post-decrement value is `<= 0` delete the backend bytes
and then the blob row.  The returned action list records the destructive
storage/table operations in the order the code performs them. -/
def gcRelease (s : VaultState) (d : List Nat) : VaultState × List GCAct :=
  let blobs1 := decRef s.blobs d
  match findBlob blobs1 d with
  | none => ({ s with blobs := blobs1 }, [])
  | some b =>
      if b.ref_count ≤ 0 then
        ({ s with blobs := dropBlob blobs1 d, stored := dropStored s.stored b.path },
         [GCAct.deleteBytes b.path, GCAct.deleteRow d])
      else
        ({ s with blobs := blobs1 }, [])

/-- `FileViewSet.destroy`: delete the `File` row, then run blob garbage
collection with that row's blob. -/
def destroyRecord (s : VaultState) (k : Nat) : VaultState :=
  match findRecord s.records k with
  | none => s
  | some r => (gcRelease { s with records := eraseRecord s.records k } r.blobDigest).1

/-- A completed API operation: an upload of some byte content, or a
deletion of a record by id. -/
inductive Op where
  | up (content : List Nat)
  | del (fid : Nat)

def runOps : VaultState → List Op → VaultState
  | s, [] => s
  | s, Op.up c :: ops => runOps (processUpload s c) ops
  | s, Op.del k :: ops => runOps (destroyRecord s k) ops

/-- The reference-counting consistency invariant of the blob store:
digests are unique across blob rows, every blob's `ref_count` equals the
number of `File` rows referencing it and is at least 1, and every record
references an existing blob row. -/
def VaultInv (s : VaultState) : Prop :=
  (blobDigests s.blobs).Nodup
  ∧ (∀ b ∈ s.blobs, b.ref_count = (countRefs s.records b.sha256 : Int))
  ∧ (∀ b ∈ s.blobs, 1 ≤ b.ref_count)
  ∧ (∀ r ∈ s.records, ∃ b ∈ s.blobs, b.sha256 = r.blobDigest)

/-! ### Filename sanitization and validators (`validators.py`) -/

/-- Python `\w` over ASCII: alphanumerics and the underscore. -/
def wordChar (c : Char) : Bool := c.isAlphanum || c = '_'

/-- Python `\s` over ASCII. -/
def spaceChar (c : Char) : Bool :=
  c = ' ' || c = '\t' || c = '\n' || c = '\r' || c = '\x0b' || c = '\x0c'

def lowerChars (l : List Char) : List Char := l.map Char.toLower

/-- `os.path.basename` (POSIX): the part after the last slash. -/
def pyBasename (l : List Char) : List Char :=
  (l.reverse.takeWhile (fun c => c ≠ '/')).reverse

def lastIdxOf (l : List Char) (c : Char) : Option Nat :=
  match l.reverse.findIdx? (fun x => x = c) with
  | none => none
  | some j => some (l.length - 1 - j)

/-- Index of the extension separator according to `os.path.splitext`:
the last dot, provided it sits after the last slash and some non-dot
character precedes it within the basename. -/
def splitextPos (l : List Char) : Option Nat :=
  let base := match lastIdxOf l '/' with
    | none => 0
    | some i => i + 1
  match lastIdxOf l '.' with
  | none => none
  | some dotIdx =>
      if base ≤ dotIdx ∧ ((l.drop base).take (dotIdx - base)).any (fun c => c ≠ '.') then
        some dotIdx
      else none

/-- `os.path.splitext(l)[1]` (the extension, dot included). -/
def extOf (l : List Char) : List Char :=
  match splitextPos l with
  | some i => l.drop i
  | none => []

/-- `os.path.splitext(l)[0]` (the root). -/
def rootOf (l : List Char) : List Char :=
  match splitextPos l with
  | some i => l.take i
  | none => l

/-- `os.path.splitext(l)[1].lower().lstrip('.')`, the extension string the
validators compare against the configured lists. -/
def normalizeExt (l : List Char) : List Char :=
  (lowerChars (extOf l)).dropWhile (fun c => c = '.')

def fallbackName : List Char := "unnamed_file".toList

/-- The character map of `re.sub(r'[^\w\s\-\.]', '_', filename)`: keep
word characters, whitespace, hyphens and dots, replace the rest. -/
def sanitizeMapChar (c : Char) : Char :=
  if wordChar c || spaceChar c || c = '-' || c = '.' then c else '_'

/-- `re.sub(r'[_\s]+', '_', filename)`: each maximal run of underscores
and whitespace becomes a single underscore.  The flag records whether the
previous character belonged to such a run. -/
def collapseRuns : Bool → List Char → List Char
  | _, [] => []
  | inRun, c :: rest =>
      if c = '_' || spaceChar c then
        if inRun then collapseRuns true rest else '_' :: collapseRuns true rest
      else c :: collapseRuns false rest

/-- `filename.strip('_.')`. -/
def stripUnderscoreDot (l : List Char) : List Char :=
  ((l.dropWhile (fun c => c = '_' || c = '.')).reverse.dropWhile
    (fun c => c = '_' || c = '.')).reverse

/-- `filename.rstrip('_')`. -/
def rstripUnderscore (l : List Char) : List Char :=
  (l.reverse.dropWhile (fun c => c = '_')).reverse

/-- `sanitize_filename` before the final length limit: basename, character
substitution, run collapsing, stripping, with the `'unnamed_file'`
fallback for empty results. -/
def sanitizeCore (name : List Char) : List Char :=
  if name = [] then fallbackName
  else if rstripUnderscore (stripUnderscoreDot
      (collapseRuns false ((pyBasename name).map sanitizeMapChar))) = [] then fallbackName
  else rstripUnderscore (stripUnderscoreDot
      (collapseRuns false ((pyBasename name).map sanitizeMapChar)))

/-- Python slicing `l[:m]`, where a negative bound counts from the end. -/
def pySliceTo (m : Int) (l : List Char) : List Char :=
  l.take (if m < 0 then ((l.length : Int) + m).toNat else m.toNat)

/-- `sanitize_filename`: the sanitized name, truncated via
`name[:255 - len(ext)] + ext` when longer than 255 characters. -/
def sanitizeFilename (name : List Char) : List Char :=
  if 255 < (sanitizeCore name).length then
    pySliceTo (255 - ((extOf (sanitizeCore name)).length : Int)) (rootOf (sanitizeCore name))
      ++ extOf (sanitizeCore name)
  else sanitizeCore name

/-- `FileValidationError` versus any other exception escaping the upload
pipeline; `create` maps the former to HTTP 400 and the rest to 500. -/
inductive UpErr where
  | fileValidation (msg : String)
  | generic (msg : String)
deriving DecidableEq

def errClass : UpErr → String
  | .fileValidation _ => "FileValidationError"
  | .generic _ => "Exception"

def msgSizeExceeded : String := "File size exceeds maximum allowed size"
def msgNameRequired : String := "Filename is required"
def msgExtBlocked : String := "File extension is not allowed for security reasons"
def msgExtNotAllowed : String := "File extension is not allowed"
def msgMimeNotAllowed : String := "MIME type is not allowed"
def msgRecordFailed : String := "record creation failed"
def msgLimitPre : String := "Storage limit exceeded"
def msgLimitPost : String := "Storage limit exceeded after upload"

/-- Upload configuration (the relevant Django settings) together with the
injected outcome of the `File.objects.create` database insert. -/
structure UploadEnv where
  maxUploadSize : Nat
  blockedExts : List (List Char)
  allowedExts : List (List Char)
  allowedMimes : List String
  recordCreateOk : Bool
deriving DecidableEq

/-- An uploaded file: declared name, the size reported by
`file_obj.size` (which the code itself notes may differ from the streamed
size), the MIME type the content sniffing detects, and the content. -/
structure UploadFile where
  name : List Char
  declaredSize : Nat
  detectedMime : String
  content : List Nat
deriving DecidableEq

/-- `validate_file_size`. -/
def validateFileSize (env : UploadEnv) (f : UploadFile) : Except UpErr Unit :=
  if env.maxUploadSize < f.declaredSize then .error (.fileValidation msgSizeExceeded)
  else .ok ()

/-- The blocked list as compared: `[x.lower() for x in BLOCKED if x]`. -/
def normBlocked (env : UploadEnv) : List (List Char) :=
  (env.blockedExts.filter (fun x => x ≠ [])).map lowerChars

/-- The allowed list as compared: `[x.lower() for x in ALLOWED if x]`. -/
def normAllowed (env : UploadEnv) : List (List Char) :=
  (env.allowedExts.filter (fun x => x ≠ [])).map lowerChars

/-- `validate_file_extension`, applied by `validate_file_security` to the
sanitized filename. -/
def validateFileExtension (env : UploadEnv) (filename : List Char) : Except UpErr Unit :=
  if filename = [] then .error (.fileValidation msgNameRequired)
  else
    let e := normalizeExt filename
    if e ∈ normBlocked env then .error (.fileValidation msgExtBlocked)
    else if env.allowedExts ≠ [] ∧ e ∉ normAllowed env then
      .error (.fileValidation msgExtNotAllowed)
    else .ok ()

/-- `validate_mime_type`; the magic/mimetypes detection result is an input
(`detectedMime`), the check against `ALLOWED_MIME_TYPES` is modelled. -/
def validateMimeType (env : UploadEnv) (f : UploadFile) : Except UpErr String :=
  if env.allowedMimes ≠ [] ∧ f.detectedMime ∉ env.allowedMimes then
    .error (.fileValidation msgMimeNotAllowed)
  else .ok f.detectedMime

structure ValidationInfo where
  originalFilename : List Char
  sanitizedFilename : List Char
  mimeType : String
  extension : List Char
  size : Nat
deriving DecidableEq

/-- `validate_file_security`: size, then sanitization + extension, then
MIME; returns the validated data used by the upload orchestrator. -/
def validateFileSecurity (env : UploadEnv) (f : UploadFile) : Except UpErr ValidationInfo :=
  match validateFileSize env f with
  | .error e => .error e
  | .ok _ =>
      match validateFileExtension env (sanitizeFilename f.name) with
      | .error e => .error e
      | .ok _ =>
          match validateMimeType env f with
          | .error e => .error e
          | .ok m =>
              .ok ⟨f.name, sanitizeFilename f.name, m,
                normalizeExt (sanitizeFilename f.name), f.declaredSize⟩

/-! ### The upload orchestrator with its observable side effects
(`_process_upload_with_security`, `FileViewSet.create`) -/

/-- Observable side effects of one upload, in execution order:
temp-artifact lifecycle, blob row creation, backend byte write, and the
atomic reference-count increment and record insert. -/
inductive UpEv where
  | tempCreate
  | tempRemove
  | blobRowCreate (digest : List Nat)
  | bytesWrite (path : List Nat)
  | refIncrement (digest : List Nat)
  | recordInsert (fid : Nat)
deriving DecidableEq

deriving instance DecidableEq for Except

structure UploadOut where
  result : Except UpErr Nat
  state : VaultState
  events : List UpEv
deriving DecidableEq

/-- `_process_upload_with_security`.  Step 1 validates (before any temp
artifact exists); step 2 streams to a temp file computing the digest;
step 3 scans (no durable effect); step 4 resolves the blob inside a
transaction — creating the row with `ref_count = 0` and moving the temp
bytes into storage for novel content, or discarding the temp duplicate —
then increments `ref_count` atomically; step 5 inserts the `File` row.
If the insert raises (`recordCreateOk = false`), the `except` handler
only calls `cleanup_temp_file` (a no-op here: the temp artifact was
already consumed in step 4) and re-raises — the committed blob row and
its incremented `ref_count` are left in place. -/
def uploadTraced (env : UploadEnv) (s : VaultState) (f : UploadFile) : UploadOut :=
  match validateFileSecurity env f with
  | .error e => ⟨.error e, s, []⟩
  | .ok _ =>
      let d := f.content
      match findBlob s.blobs d with
      | none =>
          let s1 : VaultState :=
            { s with
              blobs := bumpRef ({ sha256 := d, size := f.content.length, path := d, ref_count := 0 } :: s.blobs) d,
              stored := d :: s.stored }
          let evs := [UpEv.tempCreate, UpEv.blobRowCreate d, UpEv.bytesWrite d,
                      UpEv.tempRemove, UpEv.refIncrement d]
          if env.recordCreateOk then
            ⟨.ok s.nextId,
             { s1 with records := ⟨s.nextId, d⟩ :: s1.records, nextId := s.nextId + 1 },
             evs ++ [UpEv.recordInsert s.nextId]⟩
          else ⟨.error (.generic msgRecordFailed), s1, evs⟩
      | some _ =>
          let s1 : VaultState := { s with blobs := bumpRef s.blobs d }
          let evs := [UpEv.tempCreate, UpEv.tempRemove, UpEv.refIncrement d]
          if env.recordCreateOk then
            ⟨.ok s.nextId,
             { s1 with records := ⟨s.nextId, d⟩ :: s1.records, nextId := s.nextId + 1 },
             evs ++ [UpEv.recordInsert s.nextId]⟩
          else ⟨.error (.generic msgRecordFailed), s1, evs⟩

/-- Physical usage: `FileBlob.objects.aggregate(total=Sum('size'))`. -/
def physicalTotal (s : VaultState) : Nat := (s.blobs.map (fun b => b.size)).sum

/-- The blob size reached through a record's foreign key. -/
def blobSizeOf (s : VaultState) (d : List Nat) : Nat :=
  match findBlob s.blobs d with
  | some b => b.size
  | none => 0

/-- Reported usage: `File.objects.aggregate(total=Sum('blob__size'))`. -/
def reportedTotal (s : VaultState) : Nat :=
  (s.records.map (fun r => blobSizeOf s r.blobDigest)).sum

inductive CreateResp where
  | created (fid : Nat)
  | badRequest (msg : String)
  | serverError (msg : String)
deriving DecidableEq

/-- `FileViewSet.create`: advisory pre-check of the storage ceiling using
`file_obj.size`, then the orchestrated upload, then the post-commit check
of the physical total; when the post-check finds the ceiling exceeded the
code deletes only the just-created `File` row (`file_record.delete()`)
and returns the capacity error. -/
def createView (env : UploadEnv) (limit : Nat) (s : VaultState) (f : UploadFile) :
    CreateResp × VaultState :=
  if limit < physicalTotal s + f.declaredSize then (.badRequest msgLimitPre, s)
  else
    let out := uploadTraced env s f
    match out.result with
    | .error (.fileValidation m) => (.badRequest m, out.state)
    | .error (.generic m) => (.serverError m, out.state)
    | .ok fid =>
        if limit < physicalTotal out.state then
          (.badRequest msgLimitPost,
           { out.state with records := eraseRecord out.state.records fid })
        else (.created fid, out.state)

/-! ### The sensitive-content scanner (`sensitive_scan.py`) -/

def emailLocalChar (c : Char) : Bool :=
  c.isAlphanum || c = '.' || c = '_' || c = '%' || c = '+' || c = '-'

def emailDomChar (c : Char) : Bool := c.isAlphanum || c = '.' || c = '-'

/-- A `\b` boundary between the previous character and the current one. -/
def boundaryOk (prev : Option Char) (c : Char) : Bool :=
  match prev with
  | none => wordChar c
  | some p => wordChar p != wordChar c

/-- Matching `[A-Z]{2,}\b` after the final dot of the e-mail pattern;
`k` letters are already consumed. -/
def tldRun : Nat → List Char → Bool
  | k, [] => decide (2 ≤ k)
  | k, c :: rest => (decide (2 ≤ k) && !wordChar c) || (c.isAlpha && tldRun (k + 1) rest)

/-- Matching `[A-Z0-9.-]+\.` before the TLD; `k` domain characters are
already consumed. -/
def domRun : Nat → List Char → Bool
  | _, [] => false
  | k, c :: rest =>
      (decide (c = '.') && decide (1 ≤ k) && tldRun 0 rest) ||
      (emailDomChar c && domRun (k + 1) rest)

/-- Matching the rest of `[A-Z0-9._%+-]+@...` after the first local
character. -/
def localRun : List Char → Bool
  | [] => false
  | c :: rest => if c = '@' then domRun 0 rest else emailLocalChar c && localRun rest

/-- Existence of a match of `EMAIL_PATTERN` starting at any position;
`prev` is the character before the current position. -/
def emailSearchAux : Option Char → List Char → Bool
  | _, [] => false
  | prev, c :: rest =>
      (boundaryOk prev c && emailLocalChar c && localRun rest) || emailSearchAux (some c) rest

def hasEmail (text : List Char) : Bool := emailSearchAux none text

def phoneBodyChar (c : Char) : Bool :=
  c.isDigit || spaceChar c || c = '-' || c = '(' || c = ')' || c = '.'

/-- Matching `[\d\s\-().]{7,}\d` of `PHONE_PATTERN`; `k` body characters
are already consumed. -/
def phoneRun : Nat → List Char → Bool
  | _, [] => false
  | k, c :: rest => (decide (7 ≤ k) && c.isDigit) || (phoneBodyChar c && phoneRun (k + 1) rest)

/-- A `PHONE_PATTERN` match starting exactly here: optional `+`, a digit,
then the bounded body ending in a digit. -/
def phoneStartAt : List Char → Bool
  | [] => false
  | c :: rest =>
      (c.isDigit && phoneRun 0 rest) ||
      (decide (c = '+') &&
        match rest with
        | [] => false
        | c2 :: r2 => c2.isDigit && phoneRun 0 r2)

def hasPhone : List Char → Bool
  | [] => false
  | c :: rest => phoneStartAt (c :: rest) || hasPhone rest

/-- Case-insensitive literal matcher: consume `w` (given lowered) from
the text, returning the rest on success. -/
def litRun : List Char → List Char → Option (List Char)
  | [], l => some l
  | _ :: _, [] => none
  | c :: ws, x :: xs => if x.toLower = c then litRun ws xs else none

/-- The trailing `\b` after a literal ending in a word character. -/
def boundaryAfter : List Char → Bool
  | [] => true
  | c :: _ => !wordChar c

/-- The leading `\b` before a literal starting with a word character. -/
def boundaryBefore (prev : Option Char) : Bool :=
  match prev with
  | none => true
  | some p => !wordChar p

/-- `w1\s?w2\b` at the current position. -/
def twoPartAt (w1 w2 : List Char) (l : List Char) : Bool :=
  match litRun w1 l with
  | none => false
  | some rest =>
      (match litRun w2 rest with
       | some r2 => boundaryAfter r2
       | none => false) ||
      (match rest with
       | [] => false
       | c :: r2 =>
           spaceChar c &&
           match litRun w2 r2 with
           | some r3 => boundaryAfter r3
           | none => false)

/-- `w\b` at the current position. -/
def onePartAt (w : List Char) (l : List Char) : Bool :=
  match litRun w l with
  | some r => boundaryAfter r
  | none => false

/-- `USERNAME_PATTERN = \b(user\s?name|login\s?id)\b`, searched anywhere. -/
def hasUsernameMark : Option Char → List Char → Bool
  | _, [] => false
  | prev, c :: rest =>
      (boundaryBefore prev &&
        (twoPartAt "user".toList "name".toList (c :: rest) ||
         twoPartAt "login".toList "id".toList (c :: rest))) ||
      hasUsernameMark (some c) rest

/-- `PASSWORD_PATTERN = \b(pass\s?word|pwd)\b`, searched anywhere. -/
def hasPasswordMark : Option Char → List Char → Bool
  | _, [] => false
  | prev, c :: rest =>
      (boundaryBefore prev &&
        (twoPartAt "pass".toList "word".toList (c :: rest) ||
         onePartAt "pwd".toList (c :: rest))) ||
      hasPasswordMark (some c) rest

/-- `w` is a leading run of `l` (both already lowered). -/
def runEq : List Char → List Char → Bool
  | [], _ => true
  | _ :: _, [] => false
  | c :: ws, x :: xs => decide (x = c) && runEq ws xs

/-- Python `w in text` substring containment. -/
def hasSub (w : List Char) : List Char → Bool
  | [] => runEq w []
  | x :: xs => runEq w (x :: xs) || hasSub w xs

def credentialKeywords : List (List Char) :=
  ["otp", "one time password", "security answer", "ssn", "pan", "aadhar",
   "secret question"].map String.toList

def hasCredKeyword (textLower : List Char) : Bool :=
  credentialKeywords.any (fun w => hasSub w textLower)

/-- The set of marker kinds a scan can produce (`_detect_markers` builds a
`Set[str]` over exactly these five strings). -/
structure MarkerSet where
  email : Bool
  phone : Bool
  username : Bool
  password : Bool
  credKeyword : Bool
deriving DecidableEq

/-- `_detect_markers`.  The optional spaCy NER enhancement is modelled as
absent (optional dependency; per the code it can only add `email` /
`credential_keyword` to the same set). -/
def detectMarkers (text : List Char) : MarkerSet :=
  { email := hasEmail text,
    phone := hasPhone text,
    username := hasUsernameMark none text,
    password := hasPasswordMark none text,
    credKeyword := hasCredKeyword (text.map Char.toLower) }

/-- `sorted(markers)`: the five kind strings in their lexicographic
order. -/
def markersSorted (m : MarkerSet) : List String :=
  (if m.credKeyword then ["credential_keyword"] else []) ++
  (if m.email then ["email"] else []) ++
  (if m.password then ["password"] else []) ++
  (if m.phone then ["phone"] else []) ++
  (if m.username then ["username"] else [])

/-- `MARKER_LABELS.get(marker, marker)`. -/
def markerLabel : String → String
  | "email" => "email address"
  | "phone" => "phone number"
  | "username" => "username"
  | "password" => "password"
  | "credential_keyword" => "other sensitive keyword"
  | other => other

/-- `', '.join(rest) + ' and ' + last` over a non-singleton list. -/
def joinAnd : List String → String
  | [] => ""
  | [x] => x
  | [x, y] => x ++ " and " ++ y
  | x :: xs => x ++ ", " ++ joinAnd xs

/-- `_format_summary`. -/
def formatSummary (m : MarkerSet) : String :=
  match (markersSorted m).map markerLabel with
  | [] => ""
  | [x] => "Contains " ++ x
  | l => "Contains " ++ joinAnd l

/-- The sentence the spec prescribes for a stored marker list: labels of
the markers joined with commas and a final "and". -/
def specSummary (markers : List String) : String :=
  match markers.map markerLabel with
  | [] => ""
  | [x] => "Contains " ++ x
  | l => "Contains " ++ joinAnd l

structure ScanResult where
  detected : Bool
  markers : List String
  summary : String
deriving DecidableEq

def emptyScan : ScanResult := ⟨false, [], ""⟩

/-- Scanner configuration: `SENSITIVE_SCAN_ENABLED`,
`SENSITIVE_SCAN_EXTENSIONS`, `SENSITIVE_SCAN_MAX_BYTES`,
`SENSITIVE_SCAN_MAX_TEXT_CHARS`. -/
structure ScanCfg where
  enabled : Bool
  extsConfigured : List (List Char)
  maxBytes : Nat
  maxChars : Nat
deriving DecidableEq

/-- The file as the scanner sees it: its size on disk and, per supported
format, the text its extractor would produce (`none` models an extraction
failure or a missing optional library — both degrade to empty text in
`_extract_text`). -/
structure ScanSrc where
  size : Nat
  pdfText : Option (List Char)
  docxText : Option (List Char)
  txtText : Option (List Char)
  rtfText : Option (List Char)
  docText : Option (List Char)
deriving DecidableEq

def pyStripChars (l : List Char) : List Char :=
  ((l.dropWhile spaceChar).reverse.dropWhile spaceChar).reverse

def defaultScanExts : List (List Char) :=
  ["pdf", "txt", "doc", "docx", "rtf"].map String.toList

/-- The supported-extension set of `analyze_file_for_sensitive_content`:
the configured list when it has a truthy entry, else the default set;
entries stripped and lowered, blank entries removed, with the default as
final fallback. -/
def supportedExts (cfg : ScanCfg) : List (List Char) :=
  let base := if cfg.extsConfigured.any (fun e => e ≠ []) then cfg.extsConfigured
              else defaultScanExts
  let cleaned := (base.filter (fun e => pyStripChars e ≠ [])).map
    (fun e => lowerChars (pyStripChars e))
  if cleaned = [] then defaultScanExts else cleaned

/-- `_extract_text`: dispatch on the normalized extension; any failure or
unsupported format yields empty text. -/
def extractText (src : ScanSrc) (e : List Char) : List Char :=
  if e = "pdf".toList then src.pdfText.getD []
  else if e = "docx".toList then src.docxText.getD []
  else if e = "txt".toList then src.txtText.getD []
  else if e = "rtf".toList then src.rtfText.getD []
  else if e = "doc".toList then src.docText.getD []
  else []

/-- `analyze_file_for_sensitive_content` (the `mimeType` argument is only
passed through to the `.doc` extractor). -/
def analyzeForSensitive (cfg : ScanCfg) (src : ScanSrc) (extension : List Char)
    (_mimeType : String) : ScanResult :=
  if !cfg.enabled then emptyScan
  else
    let nExt := (lowerChars extension).dropWhile (fun c => c = '.')
    if nExt ∉ supportedExts cfg then emptyScan
    else if cfg.maxBytes < src.size then emptyScan
    else
      let text := extractText src nExt
      if text = [] then emptyScan
      else
        let m := detectMarkers (text.take cfg.maxChars)
        if markersSorted m = [] then emptyScan
        else ⟨true, markersSorted m, formatSummary m⟩

/-! ### Storage statistics (`storage_stats`) -/

/-- The `dedup_ratio` variable of `storage_stats` before the final
rounding: `1 - physical/reported` with the division-by-zero guard.  The
endpoint computes it with IEEE-754 doubles; exact rational arithmetic is
the idealization here. -/
def dedupRate (s : VaultState) : ℚ :=
  if 0 < reportedTotal s then 1 - (physicalTotal s : ℚ) / (reportedTotal s : ℚ) else 0

/-- Python `round(x, 6)` as applied to `dedup_ratio` in the response:
scale by 10^6, round half-to-even, scale back — modelled over exact
rationals (away from representation boundaries this agrees with the
float computation the endpoint performs). -/
def pyRound6 (x : ℚ) : ℚ :=
  (if x * 1000000 - (⌊x * 1000000⌋ : ℚ) < 1/2 then ((⌊x * 1000000⌋ : ℤ) : ℚ)
   else if 1/2 < x * 1000000 - (⌊x * 1000000⌋ : ℚ) then ((⌊x * 1000000⌋ : ℤ) : ℚ) + 1
   else if ⌊x * 1000000⌋ % 2 = 0 then ((⌊x * 1000000⌋ : ℤ) : ℚ)
   else ((⌊x * 1000000⌋ : ℤ) : ℚ) + 1) / 1000000

structure StatsOut where
  reported : Nat
  physical : Nat
  savings : Int
  rate : ℚ

/-- The `storage_stats` response body: the totals, their difference, and
`round(dedup_ratio, 6)`. -/
def storageStats (s : VaultState) : StatsOut :=
  ⟨reportedTotal s, physicalTotal s, (reportedTotal s : Int) - (physicalTotal s : Int),
   pyRound6 (dedupRate s)⟩

/-- Per-blob weighted total `Σ countRefs · size`; the grouped form of
`reportedTotal` used in the statistics proofs. -/
def weightedTotal (s : VaultState) : Nat :=
  (s.blobs.map (fun b => countRefs s.records b.sha256 * b.size)).sum

/-! ### Concrete example inputs used by the claim theorems -/

instance vaultInvDecidable (s : VaultState) : Decidable (VaultInv s) := by
  unfold VaultInv; infer_instance

/-- Upload environment in which the `File.objects.create` insert fails. -/
def c1Env : UploadEnv := ⟨10000, [], [], [], false⟩

def c1File : UploadFile := ⟨"report.txt".toList, 3, "text/plain", [1, 2, 3]⟩

/-- A state holding one blob referenced by two records. -/
def c3Ex : VaultState := ⟨[⟨[2], 4, [2], 2⟩], [⟨0, [2]⟩, ⟨1, [2]⟩], [[2]], 2⟩

def c3Blob : Blob := ⟨[2], 4, [2], 2⟩

/-- Environment for the capacity post-check scenario: the insert works. -/
def c4Env : UploadEnv := ⟨1000, [], [], [], true⟩

/-- An 11-byte upload whose `file_obj.size` reports 0 (the streamed size
the pre-check trusts is inaccurate, as the code's own comment notes). -/
def c4File : UploadFile := ⟨"movie.txt".toList, 0, "text/plain", List.replicate 11 7⟩

def c5Cfg : ScanCfg := ⟨false, [], 100, 100⟩

def c5Src : ScanSrc := ⟨1, none, none, some ['h', 'i'], none, none⟩

def c6Cfg : ScanCfg := ⟨true, [], 2000000, 400000⟩

def c6Src : ScanSrc := ⟨16, none, none, some "john@example.com".toList, none, none⟩

/-- A state with one 4-byte blob shared by two records. -/
def c7Ex : VaultState := ⟨[⟨[1], 4, [1], 2⟩], [⟨0, [1]⟩, ⟨1, [1]⟩], [[1]], 2⟩

/-- Environment with a 10-byte upload ceiling and `exe` blocked. -/
def c8Env : UploadEnv := ⟨10, ["exe".toList], [], [], true⟩

def c8Big : UploadFile := ⟨"big.txt".toList, 11, "text/plain", [1]⟩

def c8Exe : UploadFile := ⟨"tool.exe".toList, 5, "application/octet-stream", [1]⟩

def c9Env : UploadEnv := ⟨100, ["exe".toList], [], [], true⟩

def c9File : UploadFile := ⟨"evil.exe".toList, 4, "application/octet-stream", [9, 9]⟩

/-- A name whose sanitized form has a dot-extension longer than 255
characters: `"a." ++ 300 * "b"`. -/
def c10Bad : List Char := 'a' :: '.' :: List.replicate 300 'b'

def c10Name : List Char := "my file?.txt".toList

/-- A consistent store holding one 1-byte blob referenced by 10^7
records: its exact dedup ratio `1 - 10^-7` rounds to 1.0 at six
decimals. -/
def statsEx : VaultState :=
  ⟨[⟨[1], 1, [1], 10000000⟩], List.replicate 10000000 ⟨0, [1]⟩, [[1]], 1⟩

/-! ## Lemmas about the blob-store primitives -/

theorem findBlob_decRef (bs : List Blob) (d : List Nat) :
    findBlob (decRef bs d) d =
      (findBlob bs d).map (fun b => { b with ref_count := b.ref_count - 1 }) := by
  induction bs with
  | nil => rfl
  | cons b bs ih =>
      by_cases h : b.sha256 = d
      · simp [decRef, findBlob, h]
      · simp [decRef, findBlob, h, ih]

theorem findBlob_dropBlob (bs : List Blob) (d : List Nat) :
    findBlob (dropBlob bs d) d = none := by
  induction bs with
  | nil => rfl
  | cons b bs ih =>
      by_cases h : b.sha256 = d
      · simp [dropBlob, h, ih]
      · simp [dropBlob, findBlob, h, ih]

theorem mem_dropStored {ps : List (List Nat)} {q p : List Nat}
    (h : p ∈ dropStored ps q) : p ≠ q := by
  induction ps with
  | nil => simp [dropStored] at h
  | cons a ps ih =>
      by_cases ha : a = q
      · exact ih (by simpa [dropStored, ha] using h)
      · rcases (by simpa [dropStored, ha] using h : p = a ∨ p ∈ dropStored ps q) with rfl | hm
        · exact ha
        · exact ih hm

/-- C3: every invocation of `_garbage_collect_blob` decrements the blob's
`ref_count` by exactly 1; precisely when the post-decrement value is ≤ 0
it deletes the backend bytes first and the `FileBlob` row second, and
otherwise it keeps both the row (with the decremented count) and the
stored bytes. -/
theorem gc_release_exact (s : VaultState) (d : List Nat) (b : Blob)
    (hfind : findBlob s.blobs d = some b) :
    (b.ref_count - 1 ≤ 0 →
        findBlob (gcRelease s d).1.blobs d = none
      ∧ (∀ q ∈ (gcRelease s d).1.stored, q ≠ b.path)
      ∧ (gcRelease s d).2 = [GCAct.deleteBytes b.path, GCAct.deleteRow d])
  ∧ (1 ≤ b.ref_count - 1 →
        findBlob (gcRelease s d).1.blobs d = some { b with ref_count := b.ref_count - 1 }
      ∧ (gcRelease s d).1.stored = s.stored
      ∧ (gcRelease s d).2 = []) := by
  have hkey : findBlob (decRef s.blobs d) d = some { b with ref_count := b.ref_count - 1 } := by
    rw [findBlob_decRef, hfind]; rfl
  constructor
  · intro hle
    simp only [gcRelease, hkey, if_pos hle]
    refine ⟨?_, ?_, ?_⟩ <;>
      first
        | trivial
        | exact findBlob_dropBlob _ _
        | exact fun q hq => mem_dropStored hq
  · intro hge
    have hlt : ¬ (b.ref_count - 1 ≤ 0) := by omega
    simp only [gcRelease, hkey, if_neg hlt]
    refine ⟨?_, ?_, ?_⟩ <;> trivial

theorem gc_release_exact_witness :
    findBlob (gcRelease c3Ex [2]).1.blobs [2] =
        some { c3Blob with ref_count := c3Blob.ref_count - 1 }
    ∧ (gcRelease c3Ex [2]).1.stored = c3Ex.stored
    ∧ (gcRelease c3Ex [2]).2 = [] :=
  (gc_release_exact c3Ex [2] c3Blob (by decide)).2 (by decide)

theorem findBlob_eq_none_iff {bs : List Blob} {d : List Nat} :
    findBlob bs d = none ↔ ∀ b ∈ bs, b.sha256 ≠ d := by
  induction bs with
  | nil => simp [findBlob]
  | cons b bs ih =>
      by_cases h : b.sha256 = d
      · simp [findBlob, h]
      · simp [findBlob, h, ih]

theorem findBlob_mem {bs : List Blob} {d : List Nat} {b : Blob}
    (h : findBlob bs d = some b) : b ∈ bs ∧ b.sha256 = d := by
  induction bs with
  | nil => simp [findBlob] at h
  | cons a bs ih =>
      by_cases ha : a.sha256 = d
      · rw [findBlob, if_pos ha] at h
        cases h
        exact ⟨List.mem_cons_self _ _, ha⟩
      · rw [findBlob, if_neg ha] at h
        exact ⟨List.mem_cons_of_mem _ (ih h).1, (ih h).2⟩

theorem findBlob_of_mem_nodup {bs : List Blob} {d : List Nat} {b : Blob}
    (hN : (blobDigests bs).Nodup) (hm : b ∈ bs) (hs : b.sha256 = d) :
    findBlob bs d = some b := by
  induction bs with
  | nil => simp at hm
  | cons a bs ih =>
      simp only [blobDigests, List.map_cons, List.nodup_cons] at hN
      rcases List.mem_cons.mp hm with rfl | hm2
      · simp [findBlob, hs]
      · have ha : a.sha256 ≠ d := by
          intro had
          have hmem : b.sha256 ∈ List.map (fun x => x.sha256) bs :=
            List.mem_map_of_mem _ hm2
          rw [hs, ← had] at hmem
          exact hN.1 hmem
        rw [findBlob, if_neg ha]
        exact ih hN.2 hm2

theorem blobDigests_bumpRef (bs : List Blob) (d : List Nat) :
    blobDigests (bumpRef bs d) = blobDigests bs := by
  induction bs with
  | nil => rfl
  | cons b bs ih =>
      by_cases h : b.sha256 = d <;> simp [bumpRef, blobDigests, h] <;>
        simpa [blobDigests] using ih

theorem blobDigests_decRef (bs : List Blob) (d : List Nat) :
    blobDigests (decRef bs d) = blobDigests bs := by
  induction bs with
  | nil => rfl
  | cons b bs ih =>
      by_cases h : b.sha256 = d <;> simp [decRef, blobDigests, h] <;>
        simpa [blobDigests] using ih

theorem bumpRef_eq_self {bs : List Blob} {d : List Nat}
    (h : ∀ b ∈ bs, b.sha256 ≠ d) : bumpRef bs d = bs := by
  induction bs with
  | nil => rfl
  | cons b bs ih =>
      rw [bumpRef, if_neg (h b (List.mem_cons_self _ _))]
      rw [ih (fun b2 hb2 => h b2 (List.mem_cons_of_mem _ hb2))]

theorem mem_bumpRef {bs : List Blob} {d : List Nat} {b2 : Blob}
    (h : b2 ∈ bumpRef bs d) :
    (∃ b ∈ bs, b.sha256 = d ∧ b2 = { b with ref_count := b.ref_count + 1 }) ∨
      (b2 ∈ bs ∧ b2.sha256 ≠ d) := by
  induction bs with
  | nil => simp [bumpRef] at h
  | cons a bs ih =>
      by_cases ha : a.sha256 = d
      · rw [bumpRef, if_pos ha] at h
        rcases List.mem_cons.mp h with rfl | h2
        · exact Or.inl ⟨a, List.mem_cons_self _ _, ha, rfl⟩
        · rcases ih h2 with ⟨b, hb, hs, he⟩ | ⟨hm, hs⟩
          · exact Or.inl ⟨b, List.mem_cons_of_mem _ hb, hs, he⟩
          · exact Or.inr ⟨List.mem_cons_of_mem _ hm, hs⟩
      · rw [bumpRef, if_neg ha] at h
        rcases List.mem_cons.mp h with rfl | h2
        · exact Or.inr ⟨List.mem_cons_self _ _, ha⟩
        · rcases ih h2 with ⟨b, hb, hs, he⟩ | ⟨hm, hs⟩
          · exact Or.inl ⟨b, List.mem_cons_of_mem _ hb, hs, he⟩
          · exact Or.inr ⟨List.mem_cons_of_mem _ hm, hs⟩

theorem mem_decRef {bs : List Blob} {d : List Nat} {b2 : Blob}
    (h : b2 ∈ decRef bs d) :
    (∃ b ∈ bs, b.sha256 = d ∧ b2 = { b with ref_count := b.ref_count - 1 }) ∨
      (b2 ∈ bs ∧ b2.sha256 ≠ d) := by
  induction bs with
  | nil => simp [decRef] at h
  | cons a bs ih =>
      by_cases ha : a.sha256 = d
      · rw [decRef, if_pos ha] at h
        rcases List.mem_cons.mp h with rfl | h2
        · exact Or.inl ⟨a, List.mem_cons_self _ _, ha, rfl⟩
        · rcases ih h2 with ⟨b, hb, hs, he⟩ | ⟨hm, hs⟩
          · exact Or.inl ⟨b, List.mem_cons_of_mem _ hb, hs, he⟩
          · exact Or.inr ⟨List.mem_cons_of_mem _ hm, hs⟩
      · rw [decRef, if_neg ha] at h
        rcases List.mem_cons.mp h with rfl | h2
        · exact Or.inr ⟨List.mem_cons_self _ _, ha⟩
        · rcases ih h2 with ⟨b, hb, hs, he⟩ | ⟨hm, hs⟩
          · exact Or.inl ⟨b, List.mem_cons_of_mem _ hb, hs, he⟩
          · exact Or.inr ⟨List.mem_cons_of_mem _ hm, hs⟩

theorem image_mem_bumpRef {bs : List Blob} {b : Blob} (d : List Nat) (h : b ∈ bs) :
    (if b.sha256 = d then { b with ref_count := b.ref_count + 1 } else b) ∈ bumpRef bs d := by
  induction bs with
  | nil => simp at h
  | cons a bs ih =>
      rcases List.mem_cons.mp h with rfl | h2
      · rw [bumpRef]; exact List.mem_cons_self _ _
      · rw [bumpRef]; exact List.mem_cons_of_mem _ (ih h2)

theorem image_mem_decRef {bs : List Blob} {b : Blob} (d : List Nat) (h : b ∈ bs) :
    (if b.sha256 = d then { b with ref_count := b.ref_count - 1 } else b) ∈ decRef bs d := by
  induction bs with
  | nil => simp at h
  | cons a bs ih =>
      rcases List.mem_cons.mp h with rfl | h2
      · rw [decRef]; exact List.mem_cons_self _ _
      · rw [decRef]; exact List.mem_cons_of_mem _ (ih h2)

theorem mem_dropBlob {bs : List Blob} {d : List Nat} {b2 : Blob} :
    b2 ∈ dropBlob bs d ↔ b2 ∈ bs ∧ b2.sha256 ≠ d := by
  induction bs with
  | nil => simp [dropBlob]
  | cons a bs ih =>
      by_cases ha : a.sha256 = d
      · rw [dropBlob, if_pos ha, ih]
        constructor
        · rintro ⟨hm, hs⟩
          exact ⟨List.mem_cons_of_mem _ hm, hs⟩
        · rintro ⟨hm, hs⟩
          rcases List.mem_cons.mp hm with rfl | hm2
          · exact absurd ha hs
          · exact ⟨hm2, hs⟩
      · rw [dropBlob, if_neg ha]
        constructor
        · intro hm
          rcases List.mem_cons.mp hm with rfl | hm2
          · exact ⟨List.mem_cons_self _ _, ha⟩
          · exact ⟨List.mem_cons_of_mem _ (ih.mp hm2).1, (ih.mp hm2).2⟩
        · rintro ⟨hm, hs⟩
          rcases List.mem_cons.mp hm with rfl | hm2
          · exact List.mem_cons_self _ _
          · exact List.mem_cons_of_mem _ (ih.mpr ⟨hm2, hs⟩)

theorem blobDigests_dropBlob_sublist (bs : List Blob) (d : List Nat) :
    (blobDigests (dropBlob bs d)).Sublist (blobDigests bs) := by
  induction bs with
  | nil => simp [dropBlob, blobDigests]
  | cons a bs ih =>
      by_cases ha : a.sha256 = d
      · rw [dropBlob, if_pos ha]
        exact List.Sublist.cons _ ih
      · rw [dropBlob, if_neg ha]
        exact List.Sublist.cons₂ _ ih

theorem countRefs_zero_of {rs : List FileRec} {d : List Nat}
    (h : ∀ r ∈ rs, r.blobDigest ≠ d) : countRefs rs d = 0 := by
  induction rs with
  | nil => rfl
  | cons r rs ih =>
      rw [countRefs, if_neg (h r (List.mem_cons_self _ _))]
      have := ih (fun r2 hr2 => h r2 (List.mem_cons_of_mem _ hr2))
      omega

theorem countRefs_pos_of_mem {rs : List FileRec} {d : List Nat} {r : FileRec}
    (hr : r ∈ rs) (hd : r.blobDigest = d) : 1 ≤ countRefs rs d := by
  induction rs with
  | nil => simp at hr
  | cons a rs ih =>
      rcases List.mem_cons.mp hr with rfl | h2
      · rw [countRefs, if_pos hd]; omega
      · rw [countRefs]
        have := ih h2
        by_cases ha : a.blobDigest = d
        · rw [if_pos ha]; omega
        · rw [if_neg ha]; omega

theorem findRecord_mem {rs : List FileRec} {k : Nat} {r : FileRec}
    (h : findRecord rs k = some r) : r ∈ rs := by
  induction rs with
  | nil => simp [findRecord] at h
  | cons a rs ih =>
      by_cases ha : a.fid = k
      · rw [findRecord, if_pos ha] at h
        cases h
        exact List.mem_cons_self _ _
      · rw [findRecord, if_neg ha] at h
        exact List.mem_cons_of_mem _ (ih h)

theorem mem_eraseRecord {rs : List FileRec} {k : Nat} {r2 : FileRec}
    (h : r2 ∈ eraseRecord rs k) : r2 ∈ rs := by
  induction rs with
  | nil => simp [eraseRecord] at h
  | cons a rs ih =>
      by_cases ha : a.fid = k
      · rw [eraseRecord, if_pos ha] at h
        exact List.mem_cons_of_mem _ h
      · rw [eraseRecord, if_neg ha] at h
        rcases List.mem_cons.mp h with rfl | h2
        · exact List.mem_cons_self _ _
        · exact List.mem_cons_of_mem _ (ih h2)

theorem countRefs_eraseRecord {rs : List FileRec} {k : Nat} {r : FileRec}
    (h : findRecord rs k = some r) (d : List Nat) :
    countRefs rs d = countRefs (eraseRecord rs k) d + (if r.blobDigest = d then 1 else 0) := by
  induction rs with
  | nil => simp [findRecord] at h
  | cons a rs ih =>
      by_cases ha : a.fid = k
      · rw [findRecord, if_pos ha] at h
        cases h
        rw [countRefs, eraseRecord, if_pos ha]
        omega
      · rw [findRecord, if_neg ha] at h
        rw [countRefs, eraseRecord, if_neg ha, countRefs, ih h]
        omega

theorem blob_unique {bs : List Blob} (hN : (blobDigests bs).Nodup) {b1 b2 : Blob}
    (h1 : b1 ∈ bs) (h2 : b2 ∈ bs) (h : b1.sha256 = b2.sha256) : b1 = b2 :=
  List.inj_on_of_nodup_map hN h1 h2 h

theorem vaultInv_processUpload {s : VaultState} (h : VaultInv s) (c : List Nat) :
    VaultInv (processUpload s c) := by
  obtain ⟨hN, hCnt, hPos, hRef⟩ := h
  unfold processUpload
  cases hfb : findBlob s.blobs c with
  | none =>
      dsimp only
      have hnone : ∀ b ∈ s.blobs, b.sha256 ≠ c := findBlob_eq_none_iff.mp hfb
      have hcnt0 : countRefs s.records c = 0 := by
        refine countRefs_zero_of (fun r hr hd => ?_)
        obtain ⟨b, hb, hs⟩ := hRef r hr
        exact hnone b hb (hs.trans hd)
      have hbump : bumpRef ({ sha256 := c, size := c.length, path := c, ref_count := 0 } :: s.blobs) c
          = { sha256 := c, size := c.length, path := c, ref_count := 0 + 1 } :: s.blobs := by
        rw [bumpRef, if_pos rfl, bumpRef_eq_self hnone]
      rw [hbump]
      refine ⟨?_, ?_, ?_, ?_⟩
      · simp only [blobDigests, List.map_cons, List.nodup_cons]
        exact ⟨fun hmem => by
            obtain ⟨b, hb, hs⟩ := List.mem_map.mp hmem
            exact hnone b hb hs,
          hN⟩
      · intro b2 hb2
        rcases List.mem_cons.mp hb2 with rfl | hm
        · simp only [countRefs, hcnt0]
          norm_num
        · have := hCnt b2 hm
          have hne : ¬ ((⟨s.nextId, c⟩ : FileRec).blobDigest = b2.sha256) :=
            fun hd => hnone b2 hm hd.symm
          simp only [countRefs, if_neg hne]
          simpa using this
      · intro b2 hb2
        rcases List.mem_cons.mp hb2 with rfl | hm
        · norm_num
        · exact hPos b2 hm
      · intro r hr
        rcases List.mem_cons.mp hr with rfl | hm
        · exact ⟨_, List.mem_cons_self _ _, rfl⟩
        · obtain ⟨b, hb, hs⟩ := hRef r hm
          exact ⟨b, List.mem_cons_of_mem _ hb, hs⟩
  | some b0 =>
      dsimp only
      obtain ⟨hb0m, hb0s⟩ := findBlob_mem hfb
      refine ⟨?_, ?_, ?_, ?_⟩
      · rw [blobDigests_bumpRef]; exact hN
      · intro b2 hb2
        rcases mem_bumpRef hb2 with ⟨b, hb, hbs, rfl⟩ | ⟨hm, hs⟩
        · have := hCnt b hb
          have hd : (⟨s.nextId, c⟩ : FileRec).blobDigest = b.sha256 := hbs.symm
          simp only [countRefs, if_pos hd]
          rw [hbs] at this ⊢
          push_cast
          omega
        · have := hCnt b2 hm
          have hne : ¬ ((⟨s.nextId, c⟩ : FileRec).blobDigest = b2.sha256) :=
            fun hd => hs hd.symm
          simp only [countRefs, if_neg hne]
          simpa using this
      · intro b2 hb2
        rcases mem_bumpRef hb2 with ⟨b, hb, hbs, rfl⟩ | ⟨hm, hs⟩
        · have := hPos b hb
          simp only []
          omega
        · exact hPos b2 hm
      · intro r hr
        rcases List.mem_cons.mp hr with rfl | hm
        · refine ⟨{ b0 with ref_count := b0.ref_count + 1 }, ?_, hb0s⟩
          have := image_mem_bumpRef c hb0m
          rwa [if_pos hb0s] at this
        · obtain ⟨b, hb, hs⟩ := hRef r hm
          by_cases hbd : b.sha256 = c
          · refine ⟨{ b with ref_count := b.ref_count + 1 }, ?_, hs⟩
            have := image_mem_bumpRef c hb
            rwa [if_pos hbd] at this
          · refine ⟨b, ?_, hs⟩
            have := image_mem_bumpRef c hb
            rwa [if_neg hbd] at this

theorem vaultInv_destroyRecord {s : VaultState} (h : VaultInv s) (k : Nat) :
    VaultInv (destroyRecord s k) := by
  obtain ⟨hN, hCnt, hPos, hRef⟩ := h
  unfold destroyRecord
  cases hfr : findRecord s.records k with
  | none => exact ⟨hN, hCnt, hPos, hRef⟩
  | some r =>
      obtain ⟨b0, hb0m, hb0s⟩ := hRef r (findRecord_mem hfr)
      have hfb : findBlob s.blobs r.blobDigest = some b0 :=
        findBlob_of_mem_nodup hN hb0m hb0s
      have hioc : countRefs s.records r.blobDigest =
          countRefs (eraseRecord s.records k) r.blobDigest + 1 := by
        have := countRefs_eraseRecord hfr r.blobDigest
        simpa using this
      have hkey : findBlob (decRef s.blobs r.blobDigest) r.blobDigest
          = some { b0 with ref_count := b0.ref_count - 1 } := by
        rw [findBlob_decRef, hfb]; rfl
      have href0 : b0.ref_count = (countRefs s.records r.blobDigest : Int) := by
        have := hCnt b0 hb0m
        rwa [hb0s] at this
      by_cases hz : b0.ref_count - 1 ≤ 0
      · have hcnt0 : countRefs (eraseRecord s.records k) r.blobDigest = 0 := by
          rw [hioc] at href0
          push_cast at href0
          omega
        simp only [gcRelease, hkey, if_pos hz, VaultInv]
        refine ⟨?_, ?_, ?_, ?_⟩
        · refine List.Nodup.sublist (blobDigests_dropBlob_sublist _ _) ?_
          rw [blobDigests_decRef]; exact hN
        · intro b2 hb2
          obtain ⟨hmem1, hsha⟩ := mem_dropBlob.mp hb2
          rcases mem_decRef hmem1 with ⟨b, hb, hbs, rfl⟩ | ⟨hm, hs⟩
          · exact absurd hbs hsha
          · have := hCnt b2 hm
            have hne : r.blobDigest ≠ b2.sha256 := fun hd => hs hd.symm
            have hc := countRefs_eraseRecord hfr b2.sha256
            rw [if_neg hne] at hc
            omega
        · intro b2 hb2
          obtain ⟨hmem1, hsha⟩ := mem_dropBlob.mp hb2
          rcases mem_decRef hmem1 with ⟨b, hb, hbs, rfl⟩ | ⟨hm, hs⟩
          · exact absurd hbs hsha
          · exact hPos b2 hm
        · intro r2 hr2
          obtain ⟨b, hb, hs⟩ := hRef r2 (mem_eraseRecord hr2)
          by_cases hbd : b.sha256 = r.blobDigest
          · exfalso
            have hd2 : r2.blobDigest = r.blobDigest := by rw [← hs, hbd]
            have := countRefs_pos_of_mem hr2 hd2
            omega
          · refine ⟨b, ?_, hs⟩
            refine mem_dropBlob.mpr ⟨?_, hbd⟩
            have := image_mem_decRef r.blobDigest hb
            rwa [if_neg hbd] at this
      · simp only [gcRelease, hkey, if_neg hz, VaultInv]
        refine ⟨?_, ?_, ?_, ?_⟩
        · rw [blobDigests_decRef]; exact hN
        · intro b2 hb2
          rcases mem_decRef hb2 with ⟨b, hb, hbs, rfl⟩ | ⟨hm, hs⟩
          · have hbb0 : b = b0 := blob_unique hN hb hb0m (hbs.trans hb0s.symm)
            subst hbb0
            simp only []
            rw [hbs]
            rw [hioc] at href0
            push_cast at href0 ⊢
            omega
          · have := hCnt b2 hm
            have hne : r.blobDigest ≠ b2.sha256 := fun hd => hs hd.symm
            have hc := countRefs_eraseRecord hfr b2.sha256
            rw [if_neg hne] at hc
            omega
        · intro b2 hb2
          rcases mem_decRef hb2 with ⟨b, hb, hbs, rfl⟩ | ⟨hm, hs⟩
          · have hbb0 : b = b0 := blob_unique hN hb hb0m (hbs.trans hb0s.symm)
            subst hbb0
            simp only []
            omega
          · exact hPos b2 hm
        · intro r2 hr2
          obtain ⟨b, hb, hs⟩ := hRef r2 (mem_eraseRecord hr2)
          by_cases hbd : b.sha256 = r.blobDigest
          · refine ⟨{ b with ref_count := b.ref_count - 1 }, ?_, hs⟩
            have := image_mem_decRef r.blobDigest hb
            rwa [if_pos hbd] at this
          · refine ⟨b, ?_, hs⟩
            have := image_mem_decRef r.blobDigest hb
            rwa [if_neg hbd] at this

theorem vaultInv_runOps : ∀ (ops : List Op) (s : VaultState),
    VaultInv s → VaultInv (runOps s ops)
  | [], _, h => h
  | Op.up c :: ops, _, h => vaultInv_runOps ops _ (vaultInv_processUpload h c)
  | Op.del k :: ops, _, h => vaultInv_runOps ops _ (vaultInv_destroyRecord h k)

theorem vaultInv_initial : VaultInv initialState := by decide

/-- C2: across every sequence of completed uploads and record deletions,
each distinct content digest has at most one `FileBlob` row, and every
blob's `ref_count` is non-negative and equals the number of `File`
records referencing it; in particular two uploads of byte-identical
content share one blob whose `ref_count` is 2. -/
theorem dedup_refcount_invariant :
    (∀ ops : List Op,
        (blobDigests (runOps initialState ops).blobs).Nodup
      ∧ ∀ b ∈ (runOps initialState ops).blobs,
          0 ≤ b.ref_count
        ∧ b.ref_count = (countRefs (runOps initialState ops).records b.sha256 : Int))
    ∧ runOps initialState [Op.up [104, 105], Op.up [104, 105]] =
        ⟨[⟨[104, 105], 2, [104, 105], 2⟩], [⟨1, [104, 105]⟩, ⟨0, [104, 105]⟩],
          [[104, 105]], 2⟩ := by
  constructor
  · intro ops
    obtain ⟨hN, hCnt, hPos, hRef⟩ := vaultInv_runOps ops initialState vaultInv_initial
    refine ⟨hN, fun b hb => ⟨?_, hCnt b hb⟩⟩
    rw [hCnt b hb]
    exact Int.natCast_nonneg _
  · decide

theorem dedup_refcount_invariant_witness :
    0 ≤ (⟨[104, 105], 2, [104, 105], 2⟩ : Blob).ref_count
  ∧ (⟨[104, 105], 2, [104, 105], 2⟩ : Blob).ref_count =
      (countRefs (runOps initialState [Op.up [104, 105], Op.up [104, 105]]).records
        (⟨[104, 105], 2, [104, 105], 2⟩ : Blob).sha256 : Int) :=
  (dedup_refcount_invariant.1 [Op.up [104, 105], Op.up [104, 105]]).2
    ⟨[104, 105], 2, [104, 105], 2⟩ (by decide)

/-- C1 (code-bug exhibit): when the `File.objects.create` insert fails
after the blob transaction committed, the upload pipeline only cleans the
temp artifact and re-raises; no compensating `ref_count` decrement runs,
so the blob keeps `ref_count = 1` while zero `File` records reference
it. -/
theorem upload_record_failure_refcount_leak :
    (uploadTraced c1Env initialState c1File).result = .error (.generic msgRecordFailed)
  ∧ (uploadTraced c1Env initialState c1File).state.blobs = [⟨[1, 2, 3], 3, [1, 2, 3], 1⟩]
  ∧ (uploadTraced c1Env initialState c1File).state.records = []
  ∧ countRefs (uploadTraced c1Env initialState c1File).state.records [1, 2, 3] = 0
  ∧ ¬ ((⟨[1, 2, 3], 3, [1, 2, 3], 1⟩ : Blob).ref_count =
        (countRefs (uploadTraced c1Env initialState c1File).state.records [1, 2, 3] : Int))
  ∧ (uploadTraced c1Env initialState c1File).events =
      [UpEv.tempCreate, UpEv.blobRowCreate [1, 2, 3], UpEv.bytesWrite [1, 2, 3],
       UpEv.tempRemove, UpEv.refIncrement [1, 2, 3]] := by
  refine ⟨?_, ?_, ?_, ?_, ?_, ?_⟩ <;> decide

/-- C4 (code-bug exhibit): when the post-commit capacity check fires, the
rollback deletes only the `File` record; the blob row stays with
`ref_count = 1` and its backend bytes stay stored, so the commit is not
fully undone even though the caller receives the capacity error. -/
theorem capacity_postcheck_rollback_incomplete :
    (createView c4Env 10 initialState c4File).1 = .badRequest msgLimitPost
  ∧ (createView c4Env 10 initialState c4File).2.records = []
  ∧ (createView c4Env 10 initialState c4File).2.blobs =
      [⟨List.replicate 11 7, 11, List.replicate 11 7, 1⟩]
  ∧ (createView c4Env 10 initialState c4File).2.stored = [List.replicate 11 7]
  ∧ physicalTotal (createView c4Env 10 initialState c4File).2 = 11 := by
  refine ⟨?_, ?_, ?_, ?_, ?_⟩ <;> decide

/-- C8 (amended): an upload whose reported size exceeds
`MAX_UPLOAD_SIZE` aborts with the size-limit `FileValidationError`
before any temp artifact is created, leaving the state unchanged and an
empty event trace — the error class is the one shared with all
validation failures. -/
theorem oversize_upload_rejected_before_temp (env : UploadEnv) (s : VaultState)
    (f : UploadFile) (hsz : env.maxUploadSize < f.declaredSize) :
    uploadTraced env s f = ⟨.error (.fileValidation msgSizeExceeded), s, []⟩ := by
  unfold uploadTraced validateFileSecurity validateFileSize
  rw [if_pos hsz]

theorem oversize_upload_rejected_before_temp_witness :
    c8Env.maxUploadSize < c8Big.declaredSize
  ∧ uploadTraced c8Env initialState c8Big =
      ⟨.error (.fileValidation msgSizeExceeded), initialState, []⟩ :=
  ⟨by decide, oversize_upload_rejected_before_temp c8Env initialState c8Big (by decide)⟩

/-- C8 (counterexample to the claim as stated): the oversize failure is
not a distinguished error kind — it is raised as the same
`FileValidationError` class as a generic invalid-input failure (for
example a blocked extension), the two differing only in message text. -/
theorem oversize_error_not_distinguished :
    (uploadTraced c8Env initialState c8Big).result = .error (.fileValidation msgSizeExceeded)
  ∧ (uploadTraced c8Env initialState c8Exe).result = .error (.fileValidation msgExtBlocked)
  ∧ errClass (.fileValidation msgSizeExceeded) = errClass (.fileValidation msgExtBlocked) := by
  refine ⟨?_, ?_, ?_⟩ <;> decide

/-- C9: an upload whose filename extension (as the validators compute it,
from the sanitized name) is in the blocked list fails with a
`FileValidationError` and has zero side effects: no blob row, no record,
no temp artifact — the state is unchanged and the event trace empty. -/
theorem blocked_extension_no_side_effects (env : UploadEnv) (s : VaultState)
    (f : UploadFile)
    (hblk : normalizeExt (sanitizeFilename f.name) ∈ normBlocked env) :
    ∃ m, uploadTraced env s f = ⟨.error (.fileValidation m), s, []⟩ := by
  unfold uploadTraced validateFileSecurity
  cases hsz : validateFileSize env f with
  | error e =>
      unfold validateFileSize at hsz
      by_cases hc : env.maxUploadSize < f.declaredSize
      · rw [if_pos hc] at hsz
        injection hsz with h
        subst h
        exact ⟨msgSizeExceeded, rfl⟩
      · rw [if_neg hc] at hsz
        simp at hsz
  | ok _ =>
      have hve : validateFileExtension env (sanitizeFilename f.name) =
          .error (.fileValidation msgExtBlocked) ∨
          validateFileExtension env (sanitizeFilename f.name) =
          .error (.fileValidation msgNameRequired) := by
        unfold validateFileExtension
        by_cases h0 : sanitizeFilename f.name = []
        · rw [if_pos h0]; exact Or.inr rfl
        · rw [if_neg h0, if_pos hblk]; exact Or.inl rfl
      rcases hve with hm2 | hm2 <;> rw [hm2] <;>
        first
          | exact ⟨msgExtBlocked, rfl⟩
          | exact ⟨msgNameRequired, rfl⟩

theorem blocked_extension_no_side_effects_witness :
    normalizeExt (sanitizeFilename c9File.name) ∈ normBlocked c9Env
  ∧ ∃ m, uploadTraced c9Env initialState c9File =
      ⟨.error (.fileValidation m), initialState, []⟩ :=
  ⟨by decide, blocked_extension_no_side_effects c9Env initialState c9File (by decide)⟩

/-- C5: the scan degrades to the empty "not detected" result — never an
error into the upload pipeline — whenever scanning is globally disabled,
the extension is outside the supported set, the file size exceeds the
configured byte ceiling, or format-specific text extraction fails
(produces no text). -/
theorem scan_degrades_to_empty (cfg : ScanCfg) (src : ScanSrc) (ext : List Char)
    (mt : String)
    (h : cfg.enabled = false
       ∨ ((lowerChars ext).dropWhile (fun c => c = '.')) ∉ supportedExts cfg
       ∨ cfg.maxBytes < src.size
       ∨ extractText src ((lowerChars ext).dropWhile (fun c => c = '.')) = []) :
    analyzeForSensitive cfg src ext mt = emptyScan := by
  unfold analyzeForSensitive
  by_cases he : cfg.enabled
  · by_cases hs : ((lowerChars ext).dropWhile (fun c => c = '.')) ∈ supportedExts cfg
    · by_cases hb : cfg.maxBytes < src.size
      · simp [he, hs, hb]
      · have htxt : extractText src ((lowerChars ext).dropWhile (fun c => c = '.')) = [] := by
          rcases h with h | h | h | h
          · rw [he] at h; cases h
          · exact absurd hs h
          · exact absurd h hb
          · exact h
        simp [he, hs, hb, htxt]
    · simp [he, hs]
  · simp [he]

theorem scan_degrades_to_empty_witness :
    c5Cfg.enabled = false
  ∧ analyzeForSensitive c5Cfg c5Src "txt".toList "text/plain" = emptyScan :=
  ⟨rfl, scan_degrades_to_empty c5Cfg c5Src "txt".toList "text/plain" (Or.inl rfl)⟩

/-- The scan result is either the empty result or the detected result
built from a marker set with a non-empty sorted rendering. -/
theorem analyze_result_cases (cfg : ScanCfg) (src : ScanSrc) (e : List Char)
    (mt : String) :
    analyzeForSensitive cfg src e mt = emptyScan ∨
    ∃ m : MarkerSet, markersSorted m ≠ [] ∧
      analyzeForSensitive cfg src e mt = ⟨true, markersSorted m, formatSummary m⟩ := by
  unfold analyzeForSensitive
  by_cases he : cfg.enabled
  · by_cases hs : ((lowerChars e).dropWhile (fun c => c = '.')) ∈ supportedExts cfg
    · by_cases hb : cfg.maxBytes < src.size
      · left; simp [he, hs, hb]
      · by_cases ht : extractText src ((lowerChars e).dropWhile (fun c => c = '.')) = []
        · left; simp [he, hs, hb, ht]
        · by_cases hm : markersSorted (detectMarkers
              ((extractText src ((lowerChars e).dropWhile (fun c => c = '.'))).take cfg.maxChars)) = []
          · left; simp [he, hs, hb, ht, hm]
          · right
            refine ⟨detectMarkers
              ((extractText src ((lowerChars e).dropWhile (fun c => c = '.'))).take cfg.maxChars),
              hm, ?_⟩
            simp [he, hs, hb, ht, hm]
    · left; simp [he, hs]
  · left; simp [he]

/-- C6: `detected` is true exactly when the marker list is non-empty; the
stored markers are strictly sorted and duplicate-free (at most one entry
per kind); the summary is the comma-plus-final-"and" join of the sorted
markers' human labels; and the plain-text payload
`john@example.com` yields exactly the email marker with summary
"Contains email address". -/
theorem scan_result_shape :
    (∀ (cfg : ScanCfg) (src : ScanSrc) (e : List Char) (mt : String),
        ((analyzeForSensitive cfg src e mt).detected = true ↔
          (analyzeForSensitive cfg src e mt).markers ≠ [])
      ∧ (analyzeForSensitive cfg src e mt).summary =
          specSummary (analyzeForSensitive cfg src e mt).markers)
  ∧ (∀ m : MarkerSet,
        List.Pairwise (fun a b : String => a.data < b.data) (markersSorted m)
      ∧ (markersSorted m).Nodup)
  ∧ analyzeForSensitive c6Cfg c6Src "txt".toList "text/plain" =
      ⟨true, ["email"], "Contains email address"⟩ := by
  refine ⟨?_, ?_, ?_⟩
  · intro cfg src e mt
    rcases analyze_result_cases cfg src e mt with hc | ⟨m, hm, hc⟩
    · rw [hc]
      exact ⟨by simp [emptyScan, specSummary], by simp [emptyScan, specSummary]⟩
    · rw [hc]
      constructor
      · simpa using hm
      · rfl
  · intro m
    obtain ⟨e, p, u, pw, k⟩ := m
    cases e <;> cases p <;> cases u <;> cases pw <;> cases k <;>
      exact ⟨by decide, by decide⟩
  · decide

theorem sum_map_add (l : List Blob) (f g : Blob → Nat) :
    (l.map (fun x => f x + g x)).sum = (l.map f).sum + (l.map g).sum := by
  induction l with
  | nil => rfl
  | cons a l ih => simp [List.map_cons, List.sum_cons, ih]; omega

theorem sum_ite_zero {bs : List Blob} {d : List Nat}
    (h : ∀ b ∈ bs, b.sha256 ≠ d) :
    (bs.map (fun b => (if d = b.sha256 then 1 else 0) * b.size)).sum = 0 := by
  induction bs with
  | nil => rfl
  | cons a bs ih =>
      have ha : ¬ (d = a.sha256) := fun hd => h a (List.mem_cons_self _ _) hd.symm
      simp only [List.map_cons, List.sum_cons, if_neg ha, Nat.zero_mul, Nat.zero_add]
      exact ih (fun b hb => h b (List.mem_cons_of_mem _ hb))

theorem sum_ite_sha {bs : List Blob} (hN : (blobDigests bs).Nodup) (d : List Nat) :
    (bs.map (fun b => (if d = b.sha256 then 1 else 0) * b.size)).sum =
      (match findBlob bs d with
       | some b => b.size
       | none => 0) := by
  induction bs with
  | nil => rfl
  | cons a bs ih =>
      simp only [blobDigests, List.map_cons, List.nodup_cons] at hN
      by_cases ha : a.sha256 = d
      · have hz : ∀ b ∈ bs, b.sha256 ≠ d := by
          intro b hb hbd
          exact hN.1 (by rw [ha, ← hbd]; exact List.mem_map_of_mem _ hb)
        simp only [List.map_cons, List.sum_cons, if_pos ha.symm, Nat.one_mul,
          findBlob, if_pos ha, sum_ite_zero hz]
        omega
      · have ha2 : ¬ (d = a.sha256) := fun hd => ha hd.symm
        simp only [List.map_cons, List.sum_cons, if_neg ha2, Nat.zero_mul, Nat.zero_add,
          findBlob, if_neg ha]
        exact ih hN.2

theorem reported_aux (bs : List Blob) (hN : (blobDigests bs).Nodup) (rs : List FileRec) :
    (rs.map (fun r =>
        (match findBlob bs r.blobDigest with
         | some b => b.size
         | none => 0))).sum =
      (bs.map (fun b => countRefs rs b.sha256 * b.size)).sum := by
  induction rs with
  | nil =>
      simp [countRefs]
  | cons r rs ih =>
      simp only [List.map_cons, List.sum_cons, countRefs]
      have hdist : (bs.map (fun b =>
          ((if r.blobDigest = b.sha256 then 1 else 0) + countRefs rs b.sha256) * b.size)).sum =
          (bs.map (fun b => (if r.blobDigest = b.sha256 then 1 else 0) * b.size)).sum +
          (bs.map (fun b => countRefs rs b.sha256 * b.size)).sum := by
        rw [← sum_map_add]
        refine congrArg List.sum (List.map_congr_left (fun b _ => ?_))
        ring
      rw [hdist, ih, sum_ite_sha hN]

/-- `reportedTotal` grouped per blob: each blob contributes its size once
per referencing record. -/
theorem reported_eq_weighted {s : VaultState} (hN : (blobDigests s.blobs).Nodup) :
    reportedTotal s = weightedTotal s :=
  reported_aux s.blobs hN s.records

theorem weighted_zero_of_physical_zero {s : VaultState}
    (hp : physicalTotal s = 0) : weightedTotal s = 0 := by
  unfold physicalTotal at hp
  unfold weightedTotal
  refine List.sum_eq_zero (fun x hx => ?_)
  obtain ⟨b, hb, rfl⟩ := List.mem_map.mp hx
  have hsz : b.size = 0 := by
    have := (List.sum_eq_zero_iff).mp hp b.size (List.mem_map_of_mem _ hb)
    exact this
  rw [hsz, Nat.mul_zero]

theorem pyRound6_zero : pyRound6 0 = 0 := by
  unfold pyRound6
  rw [show (0 : ℚ) * 1000000 = 0 by ring, Int.floor_zero]
  norm_num

theorem pyRound6_nonneg {x : ℚ} (hx : 0 ≤ x) : 0 ≤ pyRound6 x := by
  unfold pyRound6
  have hy : (0 : ℚ) ≤ x * 1000000 := by positivity
  have hf : (0 : ℤ) ≤ ⌊x * 1000000⌋ := Int.floor_nonneg.mpr hy
  have hf2 : (0 : ℚ) ≤ (⌊x * 1000000⌋ : ℚ) := by exact_mod_cast hf
  refine div_nonneg ?_ (by norm_num)
  split_ifs <;> linarith

theorem pyRound6_le_one {x : ℚ} (hx : x < 1) : pyRound6 x ≤ 1 := by
  unfold pyRound6
  have hy : x * 1000000 < 1000000 := by nlinarith
  have hf : ⌊x * 1000000⌋ < 1000000 := by
    rw [Int.floor_lt]
    exact_mod_cast hy
  have hf2 : (⌊x * 1000000⌋ : ℚ) ≤ 999999 := by
    have : ⌊x * 1000000⌋ ≤ 999999 := by omega
    exact_mod_cast this
  rw [div_le_one (by norm_num : (0 : ℚ) < 1000000)]
  split_ifs <;> linarith

theorem pyRound6_near_one : pyRound6 (1 - 1/10000000) = 1 := by
  have hy : ((1 : ℚ) - 1/10000000) * 1000000 = 9999999/10 := by norm_num
  unfold pyRound6
  rw [hy]
  have hfl : ⌊(9999999 : ℚ)/10⌋ = 999999 := by
    rw [Int.floor_eq_iff]
    norm_num
  rw [hfl]
  rw [if_neg (by norm_num), if_pos (by norm_num)]
  norm_num

/-- C7 (amended): the stats endpoint returns `reportedTotal` (sum of the
records' blob sizes), `physicalTotal` (sum of the blob sizes), their
difference as savings, and the six-decimal rounding of
`1 - physical/reported` (0 when `reported` is 0); on every consistent
store the unrounded ratio lies in [0, 1) and is 0 when nothing is
deduplicated (all `ref_count`s are 1), while the returned rounded value
lies in [0, 1]. -/
theorem storage_stats_spec (s : VaultState) (hInv : VaultInv s) :
    storageStats s = ⟨reportedTotal s, physicalTotal s,
        (reportedTotal s : Int) - (physicalTotal s : Int), pyRound6 (dedupRate s)⟩
  ∧ (reportedTotal s = 0 → (storageStats s).rate = 0)
  ∧ (0 ≤ dedupRate s ∧ dedupRate s < 1)
  ∧ (0 ≤ (storageStats s).rate ∧ (storageStats s).rate ≤ 1)
  ∧ ((∀ b ∈ s.blobs, b.ref_count = 1) → (storageStats s).rate = 0) := by
  obtain ⟨hN, hCnt, hPos, hRef⟩ := hInv
  have hrw : reportedTotal s = weightedTotal s := reported_eq_weighted hN
  have hple : physicalTotal s ≤ reportedTotal s := by
    rw [hrw]
    unfold physicalTotal weightedTotal
    refine List.sum_le_sum (fun b hb => ?_)
    have h1 : 1 ≤ countRefs s.records b.sha256 := by
      have h2 := hCnt b hb
      have h3 := hPos b hb
      omega
    calc b.size = 1 * b.size := (Nat.one_mul _).symm
      _ ≤ countRefs s.records b.sha256 * b.size := Nat.mul_le_mul_right _ h1
  have hzero : reportedTotal s = 0 → dedupRate s = 0 := by
    intro h0
    unfold dedupRate
    rw [h0]
    norm_num
  have h0le : 0 ≤ dedupRate s := by
    unfold dedupRate
    by_cases h0 : 0 < reportedTotal s
    · rw [if_pos h0]
      have hr : (0 : ℚ) < (reportedTotal s : ℚ) := by exact_mod_cast h0
      have hq : (physicalTotal s : ℚ) ≤ (reportedTotal s : ℚ) := by exact_mod_cast hple
      have hd1 : (physicalTotal s : ℚ) / (reportedTotal s : ℚ) ≤ 1 := (div_le_one hr).mpr hq
      linarith
    · rw [if_neg h0]
  have hlt1 : dedupRate s < 1 := by
    unfold dedupRate
    by_cases h0 : 0 < reportedTotal s
    · rw [if_pos h0]
      have hppos : 0 < physicalTotal s := by
        by_contra hpz
        have hp0 : physicalTotal s = 0 := by omega
        have hw0 := weighted_zero_of_physical_zero hp0
        rw [hrw, hw0] at h0
        omega
      have hr : (0 : ℚ) < (reportedTotal s : ℚ) := by exact_mod_cast h0
      have hp : (0 : ℚ) < (physicalTotal s : ℚ) := by exact_mod_cast hppos
      have hd0 : 0 < (physicalTotal s : ℚ) / (reportedTotal s : ℚ) := div_pos hp hr
      linarith
    · rw [if_neg h0]
      norm_num
  have hall0 : (∀ b ∈ s.blobs, b.ref_count = 1) → dedupRate s = 0 := by
    intro hall
    have hw : weightedTotal s = physicalTotal s := by
      unfold weightedTotal physicalTotal
      refine congrArg List.sum (List.map_congr_left (fun b hb => ?_))
      have h2 := hCnt b hb
      have h3 := hall b hb
      have hc1 : countRefs s.records b.sha256 = 1 := by omega
      rw [hc1, Nat.one_mul]
    unfold dedupRate
    by_cases h0 : 0 < reportedTotal s
    · rw [if_pos h0]
      have heq : (reportedTotal s : ℚ) = (physicalTotal s : ℚ) := by
        exact_mod_cast congrArg (Nat.cast : Nat → ℚ) (hrw.trans hw)
      rw [heq]
      have hr : (0 : ℚ) < (physicalTotal s : ℚ) := by
        rw [← heq]
        exact_mod_cast h0
      rw [div_self (ne_of_gt hr)]
      norm_num
    · rw [if_neg h0]
  refine ⟨rfl, ?_, ⟨h0le, hlt1⟩, ⟨pyRound6_nonneg h0le, pyRound6_le_one hlt1⟩, ?_⟩
  · intro h0
    show pyRound6 (dedupRate s) = 0
    rw [hzero h0, pyRound6_zero]
  · intro hall
    show pyRound6 (dedupRate s) = 0
    rw [hall0 hall, pyRound6_zero]

theorem storage_stats_spec_witness :
    VaultInv c7Ex
  ∧ (0 ≤ dedupRate c7Ex ∧ dedupRate c7Ex < 1)
  ∧ (0 ≤ (storageStats c7Ex).rate ∧ (storageStats c7Ex).rate ≤ 1) :=
  ⟨by decide,
   (storage_stats_spec c7Ex (by decide)).2.2.1,
   (storage_stats_spec c7Ex (by decide)).2.2.2.1⟩

theorem countRefs_replicate (n : Nat) (r : FileRec) (d : List Nat) :
    countRefs (List.replicate n r) d = if r.blobDigest = d then n else 0 := by
  induction n with
  | zero => simp [countRefs]
  | succ n ih =>
      rw [List.replicate_succ, countRefs, ih]
      by_cases h : r.blobDigest = d
      · simp only [if_pos h]
        omega
      · simp only [if_neg h]

theorem statsEx_records_eq :
    statsEx.records = List.replicate 10000000 ⟨0, [1]⟩ := by
  unfold statsEx
  rfl

theorem statsEx_blobs_eq : statsEx.blobs = [⟨[1], 1, [1], 10000000⟩] := by
  unfold statsEx
  rfl

theorem statsEx_inv : VaultInv statsEx := by
  refine ⟨by rw [statsEx_blobs_eq]; decide, ?_, ?_, ?_⟩
  · intro b hb
    rw [statsEx_blobs_eq] at hb
    have hb2 : b = ⟨[1], 1, [1], 10000000⟩ := by simpa using hb
    subst hb2
    have hc : countRefs statsEx.records ([1] : List Nat) = 10000000 := by
      rw [statsEx_records_eq, countRefs_replicate, if_pos rfl]
    rw [hc]
    norm_num
  · intro b hb
    rw [statsEx_blobs_eq] at hb
    have hb2 : b = ⟨[1], 1, [1], 10000000⟩ := by simpa using hb
    subst hb2
    norm_num
  · intro r hr
    rw [statsEx_records_eq] at hr
    have hr2 : r = ⟨0, [1]⟩ := List.eq_of_mem_replicate hr
    subst hr2
    refine ⟨⟨[1], 1, [1], 10000000⟩, ?_, rfl⟩
    rw [statsEx_blobs_eq]
    exact List.mem_singleton.mpr rfl

theorem statsEx_reported : reportedTotal statsEx = 10000000 := by
  unfold reportedTotal
  rw [statsEx_records_eq, List.map_replicate, List.sum_replicate]
  have hb : blobSizeOf statsEx ((⟨0, [1]⟩ : FileRec).blobDigest) = 1 := by
    unfold blobSizeOf
    rw [statsEx_blobs_eq]
    rfl
  rw [hb, smul_eq_mul, Nat.mul_one]

theorem statsEx_physical : physicalTotal statsEx = 1 := by
  unfold physicalTotal
  rw [statsEx_blobs_eq]
  rfl

/-- C7 (counterexample to the claim as stated): on a consistent
non-empty store holding one 1-byte blob referenced by 10^7 records, the
endpoint rounds `1 - 10^-7` to six decimals and returns exactly 1 —
outside the claimed [0, 1) — and the returned value is not the exact
`1 - physical_total/reported_total`. -/
theorem storage_stats_rate_reaches_one :
    VaultInv statsEx
  ∧ statsEx.records ≠ []
  ∧ (storageStats statsEx).rate = 1
  ∧ ¬ ((storageStats statsEx).rate < 1)
  ∧ (storageStats statsEx).rate ≠
      1 - (physicalTotal statsEx : ℚ) / (reportedTotal statsEx : ℚ) := by
  have hd : dedupRate statsEx = 1 - 1/10000000 := by
    unfold dedupRate
    rw [statsEx_reported, statsEx_physical]
    rw [if_pos (by norm_num)]
    norm_num
  have hrate : (storageStats statsEx).rate = 1 := by
    show pyRound6 (dedupRate statsEx) = 1
    rw [hd, pyRound6_near_one]
  refine ⟨statsEx_inv, ?_, hrate, ?_, ?_⟩
  · rw [statsEx_records_eq]
    have hlen : (List.replicate 10000000 (⟨0, [1]⟩ : FileRec)).length = 10000000 :=
      List.length_replicate _ _
    intro h
    rw [h] at hlen
    exact absurd hlen.symm (by norm_num)
  · rw [hrate]
    norm_num
  · rw [hrate, statsEx_reported, statsEx_physical]
    norm_num

theorem mem_of_dropWhile {p : Char → Bool} {l : List Char} {c : Char}
    (h : c ∈ l.dropWhile p) : c ∈ l := by
  induction l with
  | nil => simp at h
  | cons a l ih =>
      rw [List.dropWhile_cons] at h
      by_cases hp : p a = true
      · rw [if_pos hp] at h
        exact List.mem_cons_of_mem _ (ih h)
      · rw [if_neg hp] at h
        exact h

theorem mem_of_rstripUnderscore {l : List Char} {c : Char}
    (h : c ∈ rstripUnderscore l) : c ∈ l := by
  unfold rstripUnderscore at h
  rw [List.mem_reverse] at h
  exact List.mem_reverse.mp (mem_of_dropWhile h)

theorem mem_of_stripUnderscoreDot {l : List Char} {c : Char}
    (h : c ∈ stripUnderscoreDot l) : c ∈ l := by
  unfold stripUnderscoreDot at h
  rw [List.mem_reverse] at h
  have h2 := mem_of_dropWhile h
  rw [List.mem_reverse] at h2
  exact mem_of_dropWhile h2

theorem mem_of_collapseRuns {c : Char} :
    ∀ (l : List Char) (b : Bool), c ∈ collapseRuns b l → c = '_' ∨ c ∈ l := by
  intro l
  induction l with
  | nil => intro b h; simp [collapseRuns] at h
  | cons a l ih =>
      intro b h
      rw [collapseRuns] at h
      by_cases ha : (a = '_' || spaceChar a) = true
      · rw [if_pos ha] at h
        cases b with
        | true =>
            rw [if_pos rfl] at h
            rcases ih true h with h2 | h2
            · exact Or.inl h2
            · exact Or.inr (List.mem_cons_of_mem _ h2)
        | false =>
            rw [if_neg Bool.false_ne_true] at h
            rcases List.mem_cons.mp h with rfl | h2
            · exact Or.inl rfl
            · rcases ih true h2 with h3 | h3
              · exact Or.inl h3
              · exact Or.inr (List.mem_cons_of_mem _ h3)
      · rw [if_neg ha] at h
        rcases List.mem_cons.mp h with rfl | h2
        · exact Or.inr (List.mem_cons_self _ _)
        · rcases ih false h2 with h3 | h3
          · exact Or.inl h3
          · exact Or.inr (List.mem_cons_of_mem _ h3)

theorem mem_of_rootOf {l : List Char} {c : Char} (h : c ∈ rootOf l) : c ∈ l := by
  unfold rootOf at h
  cases hs : splitextPos l with
  | none => simp only [hs] at h; exact h
  | some i => simp only [hs] at h; exact (List.take_sublist _ _).subset h

theorem mem_of_extOf {l : List Char} {c : Char} (h : c ∈ extOf l) : c ∈ l := by
  unfold extOf at h
  cases hs : splitextPos l with
  | none => simp only [hs] at h; exact absurd h (List.not_mem_nil c)
  | some i => simp only [hs] at h; exact (List.drop_sublist _ _).subset h

theorem sanitizeMapChar_safe (c : Char) :
    sanitizeMapChar c ≠ '/' ∧ sanitizeMapChar c ≠ '\\' := by
  unfold sanitizeMapChar
  by_cases hk : (wordChar c || spaceChar c || c = '-' || c = '.') = true
  · rw [if_pos hk]
    constructor
    · rintro rfl; revert hk; decide
    · rintro rfl; revert hk; decide
  · rw [if_neg hk]
    exact ⟨by decide, by decide⟩

theorem sanitizeCore_safe (name : List Char) :
    ∀ c ∈ sanitizeCore name, c ≠ '/' ∧ c ≠ '\\' := by
  intro c hc
  have hfall : ∀ x ∈ fallbackName, x ≠ '/' ∧ x ≠ '\\' := by decide
  unfold sanitizeCore at hc
  split at hc
  · exact hfall c hc
  · split at hc
    · exact hfall c hc
    · have h1 := mem_of_stripUnderscoreDot (mem_of_rstripUnderscore hc)
      rcases mem_of_collapseRuns _ _ h1 with rfl | h2
      · exact ⟨by decide, by decide⟩
      · obtain ⟨c0, _, rfl⟩ := List.mem_map.mp h2
        exact sanitizeMapChar_safe c0

theorem sanitizeCore_ne_nil (name : List Char) : sanitizeCore name ≠ [] := by
  unfold sanitizeCore
  split
  · decide
  · split
    · decide
    · next h0 h5 => exact h5

theorem pySliceTo_length_le {m : Int} (hm : 0 ≤ m) (l : List Char) :
    (pySliceTo m l).length ≤ m.toNat := by
  unfold pySliceTo
  rw [if_neg (by omega : ¬ m < 0)]
  rw [List.length_take]
  omega

theorem sanitizeFilename_length {name : List Char}
    (hext : (extOf (sanitizeCore name)).length ≤ 255) :
    (sanitizeFilename name).length ≤ 255 := by
  unfold sanitizeFilename
  split
  · next hbig =>
      rw [List.length_append]
      have hm : (0 : Int) ≤ 255 - ((extOf (sanitizeCore name)).length : Int) := by omega
      have hsl := pySliceTo_length_le hm (rootOf (sanitizeCore name))
      omega
  · next hsmall => omega

theorem root_eq_of_ext_nil {l : List Char} (h : extOf l = []) : rootOf l = l := by
  unfold extOf at h
  unfold rootOf
  cases hs : splitextPos l with
  | none => simp only [hs]
  | some i =>
      simp only [hs] at h ⊢
      have hlen : l.length ≤ i := List.drop_eq_nil_iff.mp h
      exact List.take_of_length_le hlen

theorem sanitizeFilename_ne_nil (name : List Char) : sanitizeFilename name ≠ [] := by
  unfold sanitizeFilename
  split
  · next hbig =>
      by_cases hE : extOf (sanitizeCore name) = []
      · rw [hE, root_eq_of_ext_nil hE, List.append_nil]
        simp only [List.length_nil, Nat.cast_zero, sub_zero]
        unfold pySliceTo
        rw [if_neg (by norm_num : ¬ (255 : Int) < 0)]
        intro hnil
        have h1 := congrArg List.length hnil
        rw [List.length_take, List.length_nil] at h1
        have h2 : (255 : Int).toNat = 255 := rfl
        omega
      · intro hnil
        exact hE (List.append_eq_nil.mp hnil).2
  · next hsmall => exact sanitizeCore_ne_nil name

theorem mem_sanitizeFilename_core {name : List Char} {c : Char}
    (h : c ∈ sanitizeFilename name) : c ∈ sanitizeCore name := by
  unfold sanitizeFilename at h
  split at h
  · rcases List.mem_append.mp h with h2 | h2
    · unfold pySliceTo at h2
      exact mem_of_rootOf ((List.take_sublist _ _).subset h2)
    · exact mem_of_extOf h2
  · exact h

set_option maxRecDepth 4000 in
/-- C10 (counterexample to the claim as stated): on the input
`"a." ++ 300 * "b"` the sanitized name keeps its 301-character
dot-extension, so the returned filename has length 301 > 255. -/
theorem sanitize_length_cap_fails :
    (sanitizeFilename c10Bad).length = 301 ∧ 255 < (sanitizeFilename c10Bad).length := by
  have h : (sanitizeFilename c10Bad).length = 301 := by decide
  exact ⟨h, by omega⟩

/-- C10 (amended): `sanitize_filename` always returns a non-empty name
containing no path separator, the empty input yields `unnamed_file`, and
the result has length at most 255 whenever the dot-extension of the
sanitized name is itself at most 255 characters (the truncation
`name[:255 - len(ext)] + ext` cannot shorten an over-long extension). -/
theorem sanitize_filename_props (name : List Char)
    (hext : (extOf (sanitizeCore name)).length ≤ 255) :
    sanitizeFilename name ≠ []
  ∧ (∀ c ∈ sanitizeFilename name, c ≠ '/' ∧ c ≠ '\\')
  ∧ (sanitizeFilename name).length ≤ 255
  ∧ sanitizeFilename [] = fallbackName := by
  refine ⟨sanitizeFilename_ne_nil name, ?_, sanitizeFilename_length hext, by decide⟩
  intro c hc
  exact sanitizeCore_safe name c (mem_sanitizeFilename_core hc)

theorem sanitize_filename_props_witness :
    (extOf (sanitizeCore c10Name)).length ≤ 255
  ∧ (sanitizeFilename c10Name ≠ []
      ∧ (∀ c ∈ sanitizeFilename c10Name, c ≠ '/' ∧ c ≠ '\\')
      ∧ (sanitizeFilename c10Name).length ≤ 255
      ∧ sanitizeFilename [] = fallbackName) :=
  ⟨by decide, sanitize_filename_props c10Name (by decide)⟩
